import Mathlib

/-
Verification of the PIVOT classification and scoring engine of
insight-youtube-collector (src/insight_youtube_collector/analyzer/pivot_analyzer.py),
as a shallow embedding in Lean 4.

Modelling conventions:
- Python floats are modelled as rationals; all float literals in the source
  (0.2, 0.35, 0.6, 0.95, degree factors, certainties) are exact decimal values
  and the engine only adds/multiplies/compares them in ranges where the float
  and rational orders agree.
- Python `needle in text` substring tests are modelled by strContains over
  character lists; `len` is the code-point count, matching Python.
- The sentence-tail regexes of TAIL_PATTERNS are all of the form
  (?:lit1|lit2|...)$ so each is modelled as "text ends with one of the
  literal alternatives".
- The per-voice classification regexes of PIVOT_KEYWORDS (compiled in
  PIVOTAnalyzer.__init__) contain capture groups and are kept abstract: the
  analyzer carries a field patMatch : Voice → String → Bool standing for
  `any(pattern.search(text) for pattern in self.pivot_patterns[voice])`.
- uuid-based insight ids, timestamp lookup and the layer extractor (which
  also uses capture-group regexes) are omitted: no verified claim depends on
  them and they do not feed back into classification or scoring.
- Python dicts preserve insertion order; the assoc lists below list entries
  in exactly the order the Python dicts iterate them.  In VERB_TO_CATEGORY
  the verb "抜ける" occurs in both the OBSTACLE and the LOSS source lists, so
  the dict keeps it at its first (OBSTACLE-section) position with the later
  LOSS value.
- Python's stable `sorted(items, key=..., reverse=True)` is modelled by a
  stable descending insertion sort.
-/

namespace PivotAnalyzer

/- The Batteries rational operations are irreducible by default; kernel-style
evaluation of the engine on concrete sentences needs them transparent. -/
attribute [local semireducible] Rat.ofScientific Rat.mul Rat.add Rat.sub Rat.inv

set_option maxRecDepth 10000

/-- True when the first list is an initial run of the second (Python str.startswith
on char lists). -/
def leadsWith : List Char → List Char → Bool
  | [], _ => true
  | _ :: _, [] => false
  | a :: as, b :: bs => a == b && leadsWith as bs

/-- True when nd occurs contiguously inside hay (Python `nd in hay`). -/
def occursIn (nd : List Char) : List Char → Bool
  | [] => nd.isEmpty
  | c :: t => leadsWith nd (c :: t) || occursIn nd t

/-- Python `kw in text` substring containment. -/
def strContains (text kw : String) : Bool :=
  occursIn kw.toList text.toList

/-- Python `re.search(r"(?:sfx)$", text)`: text ends with sfx. -/
def strEndsWith (text sfx : String) : Bool :=
  leadsWith sfx.toList.reverse text.toList.reverse

/-- A whitespace character as stripped by Python str.strip(). -/
def isSpaceChar (c : Char) : Bool :=
  c = ' ' || c = '\t' || c = '\n' || c = '\r'

/-- Python str.strip(): leading and trailing whitespace removed. -/
def strTrim (s : String) : String :=
  String.mk (((s.toList.dropWhile isSpaceChar).reverse.dropWhile isSpaceChar).reverse)

/-- Python code-point count len(s). -/
def strLen (s : String) : Nat :=
  s.toList.length

/-- PIVOT voice codes (class PIVOT). -/
inductive Voice where
  | P
  | I
  | V
  | O
  | T
  deriving DecidableEq, Repr

/-- PIVOT.ALL. -/
def PIVOT_ALL : List Voice := [.P, .I, .V, .O, .T]

/-- PIVOT.LABELS. -/
def LABELS : Voice → String
  | .P => "Pain"
  | .I => "Insecurity"
  | .V => "Vision"
  | .O => "Objection"
  | .T => "Traction"

/-- PIVOT.SCORES: the fixed per-voice base score. -/
def SCORES : Voice → Int
  | .P => -2
  | .I => -1
  | .V => 1
  | .O => -1
  | .T => 2

/-- Position of a voice in the fixed P,I,V,O,T order. -/
def voiceIdx : Voice → Nat
  | .P => 0
  | .I => 1
  | .V => 2
  | .O => 3
  | .T => 4

/-- VerbCategory (the NEUTRAL member is never stored in the verb table). -/
inductive VerbCategory where
  | OBSTACLE
  | DIFFICULTY
  | LOSS
  | DESIRE
  | REJECTION
  | SUCCESS
  deriving DecidableEq, Repr

/-- Python dict assignment d[k] = v: an existing key keeps its position and
gets the new value, a new key is appended at the end. -/
def dictSet {β : Type} (d : List (String × β)) (k : String) (v : β) : List (String × β) :=
  if d.any (fun p => p.1 = k) then d.map (fun p => if p.1 = k then (k, v) else p)
  else d ++ [(k, v)]

/-- VERB_CATEGORY_DICT, in source declaration order. -/
def VERB_CATEGORY_DICT : List (VerbCategory × List String) := [
  (.OBSTACLE, ["止まる", "落ちる", "消える", "壊れる", "間違える",
               "動かない", "起動しない", "フリーズする", "クラッシュする",
               "遅れる", "滞る", "停滞する", "中断する", "途切れる",
               "漏れる", "抜ける", "忘れる", "見落とす", "ミスる"]),
  (.DIFFICULTY, ["困る", "詰まる", "悩む", "迷う", "分からない",
                 "苦労する", "手間取る", "てこずる", "行き詰まる",
                 "追いつかない", "間に合わない", "足りない", "不足する",
                 "つまずく", "ハマる", "沼る"]),
  (.LOSS, ["失う", "辞める", "なくなる", "減る", "いなくなる",
           "退職する", "離職する", "去る", "抜ける",
           "忘れられる", "引き継げない", "伝わらない",
           "陳腐化する", "時代遅れになる", "廃止される"]),
  (.DESIRE, ["欲しい", "ほしい", "したい", "やりたい", "なりたい",
             "できるようにしたい", "実現したい", "導入したい",
             "改善したい", "効率化したい", "自動化したい",
             "変えたい", "見たい", "知りたい", "使いたい"]),
  (.REJECTION, ["嫌がる", "反対する", "拒む", "拒否する", "無視する",
                "やりたくない", "したくない", "使いたくない",
                "認めない", "納得しない", "受け入れない",
                "嫌だ", "面倒くさい", "だるい"]),
  (.SUCCESS, ["できる", "回る", "うまくいく", "定着する", "使いこなす",
              "機能する", "動く", "成功する", "達成する",
              "改善された", "効率化された", "便利になった",
              "助かる", "楽になる", "スムーズになる"])]

/-- VERB_TO_CATEGORY, built from VERB_CATEGORY_DICT by the module-level loop
(the verb "抜ける" occurs under both OBSTACLE and LOSS, so it keeps its first
position with the later LOSS value, per Python dict semantics). -/
def VERB_TO_CATEGORY : List (String × VerbCategory) :=
  VERB_CATEGORY_DICT.foldl
    (fun d cv => cv.2.foldl (fun d verb => dictSet d verb cv.1) d) []

/-- Adjective sentiment buckets (the NEUTRAL member never appears in the table). -/
inductive Sentiment where
  | POSITIVE
  | NEGATIVE
  | ANXIETY
  deriving DecidableEq, Repr

/-- ADJECTIVE_SENTIMENT_DICT, in source declaration order. -/
def ADJECTIVE_SENTIMENT_DICT : List (Sentiment × List String) := [
  (.NEGATIVE, ["遅い", "難しい", "面倒な", "煩雑な", "不便な", "分かりにくい",
               "複雑な", "大変な", "厳しい", "辛い", "きつい", "重い",
               "悪い", "ダメな", "まずい", "ひどい", "最悪な",
               "使いにくい", "見づらい", "分かりづらい",
               "古い", "時代遅れな", "非効率な", "無駄な"]),
  (.POSITIVE, ["早い", "速い", "簡単な", "便利な", "使いやすい", "分かりやすい",
               "シンプルな", "楽な", "快適な", "スムーズな", "効率的な",
               "良い", "いい", "素晴らしい", "最高な", "優秀な",
               "見やすい", "操作しやすい", "直感的な",
               "新しい", "モダンな", "最新な"]),
  (.ANXIETY, ["不安な", "心配な", "危うい", "怪しい", "危険な",
              "不確かな", "曖昧な", "脆い", "脆弱な",
              "属人的な", "ブラックボックスな"])]

/-- ADJECTIVE_TO_SENTIMENT, built by the module-level loop (no adjective
occurs in two buckets, so this is the plain flattening). -/
def ADJECTIVE_TO_SENTIMENT : List (String × Sentiment) :=
  ADJECTIVE_SENTIMENT_DICT.foldl
    (fun d sv => sv.2.foldl (fun d adj => dictSet d adj sv.1) d) []

/-- DEGREE_ADVERBS, in source declaration order (the 1.0 bucket is empty). -/
def DEGREE_ADVERBS : List (ℚ × List String) := [
  (1.5, ["非常に", "極めて", "全く", "絶対に", "到底", "めちゃくちゃ",
         "めっちゃ", "すごく", "ものすごく", "完全に", "100%", "間違いなく"]),
  (1.3, ["かなり", "とても", "相当", "大幅に", "大いに", "だいぶ",
         "ずいぶん", "なかなか"]),
  (1, []),
  (0.7, ["少し", "多少", "やや", "ちょっと", "若干", "わずかに",
         "幾分", "いくらか"]),
  (0.4, ["ほとんど", "あまり", "たいして", "それほど"])]

/-- ADVERB_TO_DEGREE, built by the module-level loop (no adverb occurs in two
buckets, so this is the plain flattening). -/
def ADVERB_TO_DEGREE : List (String × ℚ) :=
  DEGREE_ADVERBS.foldl
    (fun d fv => fv.2.foldl (fun d adv => dictSet d adv fv.1) d) []

/-- TAIL_PATTERNS: each source regex is (?:alt|...)$, modelled as the list of
its literal suffix alternatives, with the certainty and pivot tendency. -/
def TAIL_PATTERNS : List (List String × ℚ × Option Voice) := [
  (["です", "ます", "だ", "である"], 1, some .P),
  (["ですね", "ますね", "だね", "だよね"], 1, some .P),
  (["ました", "した", "てしまった", "ちゃった"], 0.9, some .P),
  (["ている", "てる", "ていた", "てた"], 0.9, some .P),
  (["かもしれない", "かもしれません"], 0.6, some .I),
  (["だろう", "でしょう"], 0.6, some .I),
  (["と思う", "と思います"], 0.6, some .I),
  (["気がする", "気がします"], 0.6, some .I),
  (["らしい", "らしいです"], 0.4, some .I),
  (["そうだ", "そうです"], 0.4, some .I),
  (["てほしい", "てほしいです", "ていただきたい"], 0.8, some .V),
  (["たい", "たいです", "たいと思う"], 0.8, some .V),
  (["ばいいのに", "といいのに"], 0.8, some .O),
  (["たくない", "たくないです"], 0.8, some .O),
  (["てほしくない", "ないでほしい"], 0.8, some .O)]

/-- MorphologyResult dataclass. -/
structure MorphologyResult where
  verb_categories : List VerbCategory
  sentiment_score : ℚ
  degree_factor : ℚ
  certainty : ℚ
  pivot_tendency : Option Voice
  matched_verbs : List String
  matched_adjectives : List String
  matched_adverbs : List String
  deriving DecidableEq, Repr

/-- The adverb loop of MorphologyAnalyzer.analyze: running update of max_degree
(initially 1.0) over the dict entries, in iteration order. -/
def degreeLoop (text : String) : List (String × ℚ) → ℚ → ℚ
  | [], m => m
  | (adv, factor) :: rest, m =>
    if strContains text adv then
      degreeLoop text rest
        (if factor > m then factor
         else if factor < 1 ∧ m = 1 then factor
         else m)
    else degreeLoop text rest m

/-- The tail-pattern loop of MorphologyAnalyzer.analyze: first pattern (in
declaration order) one of whose suffix alternatives ends the text wins. -/
def tailScan (text : String) : List (List String × ℚ × Option Voice) → ℚ × Option Voice
  | [] => (1, none)
  | (alts, certainty, tendency) :: rest =>
    if alts.any (fun sfx => strEndsWith text sfx) then (certainty, tendency)
    else tailScan text rest

/-- MorphologyAnalyzer.analyze.  The source interleaves list-building and
running state in single passes; each output field is computed here by the
equivalent pass over the same dict in the same iteration order. -/
def morphAnalyze (text : String) : MorphologyResult :=
  let verbs := VERB_TO_CATEGORY.filter (fun p => strContains text p.1)
  let adjs := ADJECTIVE_TO_SENTIMENT.filter (fun p => strContains text p.1)
  let positive_count : ℤ := (adjs.filter (fun p => p.2 = .POSITIVE)).length
  let negative_count : ℤ := (adjs.filter (fun p => p.2 = .NEGATIVE)).length
  let anxiety_count : ℤ := (adjs.filter (fun p => p.2 = .ANXIETY)).length
  let total_adj : ℤ := positive_count + negative_count + anxiety_count
  let sentiment : ℚ :=
    if total_adj > 0 then
      max (-1) (min 1 ((positive_count - negative_count - anxiety_count : ℚ) / (total_adj : ℚ)))
    else 0
  let advs := ADVERB_TO_DEGREE.filter (fun p => strContains text p.1)
  let (certainty, tendency) := tailScan text TAIL_PATTERNS
  { verb_categories := verbs.map (fun p => p.2)
    sentiment_score := sentiment
    degree_factor := degreeLoop text ADVERB_TO_DEGREE 1
    certainty := certainty
    pivot_tendency := tendency
    matched_verbs := verbs.map (fun p => p.1)
    matched_adjectives := adjs.map (fun p => p.1)
    matched_adverbs := advs.map (fun p => p.1) }

/-- The verb-category loop of PIVOTAnalyzer._infer_pivot_from_morphology:
first category (in match order) whose rule fires wins; OBSTACLE/DIFFICULTY
only fire with negative sentiment and certainty at least 0.9. -/
def verbRule (sentiment certainty : ℚ) : List VerbCategory → Option (Voice × ℚ × String)
  | [] => none
  | cat :: rest =>
    match cat with
    | .OBSTACLE =>
      if sentiment < 0 ∧ certainty ≥ 0.9 then some (.P, 0.9, "障害系動詞+ネガティブ形容詞+高確信度")
      else verbRule sentiment certainty rest
    | .DIFFICULTY =>
      if sentiment < 0 ∧ certainty ≥ 0.9 then some (.P, 0.9, "困難系動詞+ネガティブ形容詞+高確信度")
      else verbRule sentiment certainty rest
    | .LOSS => some (.I, 0.85, "喪失系動詞")
    | .DESIRE => some (.V, 0.85, "願望系動詞")
    | .REJECTION => some (.O, 0.85, "拒否系動詞")
    | .SUCCESS =>
      if sentiment > 0 then some (.T, 0.9, "成功系動詞+ポジティブ形容詞")
      else some (.T, 0.7, "成功系動詞")

/-- The tail-tendency block of _infer_pivot_from_morphology.  A tendency of P
matches none of the branches and falls through. -/
def tendencyRule (m : MorphologyResult) : Option (Voice × ℚ × String) :=
  match m.pivot_tendency with
  | none => none
  | some tv =>
    if m.certainty ≤ 0.6 ∧ tv = .I then some (.I, 0.75, "推測/伝聞語尾")
    else if tv = .V then some (.V, 0.8, "願望語尾")
    else if tv = .O then some (.O, 0.8, "否定的願望語尾")
    else none

/-- The adjective-only block of _infer_pivot_from_morphology. -/
def sentimentRule (m : MorphologyResult) : Option (Voice × ℚ × String) :=
  if m.sentiment_score < -0.5 then some (.P, 0.6, "ネガティブ形容詞優位")
  else if m.sentiment_score > 0.5 then some (.T, 0.6, "ポジティブ形容詞優位")
  else none

/-- PIVOTAnalyzer._infer_pivot_from_morphology: verb rules, then tail-tendency
rules, then adjective-only rules, else (None, 0.0, ""). -/
def inferPivotFromMorphology (m : MorphologyResult) : Option Voice × ℚ × String :=
  match verbRule m.sentiment_score m.certainty m.verb_categories with
  | some (v, c, r) => (some v, c, r)
  | none =>
    match tendencyRule m with
    | some (v, c, r) => (some v, c, r)
    | none =>
      match sentimentRule m with
      | some (v, c, r) => (some v, c, r)
      | none => (none, 0, "")

/-- PIVOT_KEYWORDS[voice]["keywords"], in source order. -/
def voiceKeywords : Voice → List String
  | .P => ["困っている", "問題", "課題", "うまくいかない", "できない",
           "難しい", "障害", "ボトルネック", "トラブル", "エラー",
           "遅れ", "遅延", "不足", "ミス", "失敗", "止まる",
           "時間がかかる", "手間", "非効率", "無駄", "面倒",
           "バグ", "不具合", "故障", "落ちる", "動かない"]
  | .I => ["心配", "不安", "懸念", "気になる", "気がかり",
           "大丈夫か", "リスク", "危ない", "もしかしたら",
           "かもしれない", "恐れ", "属人化", "引継ぎ",
           "辞めたら", "いなくなったら", "将来", "今後",
           "先行き", "見通し", "ブラックボックス"]
  | .V => ["してほしい", "欲しい", "ほしい", "があれば", "できたら",
           "期待", "要望", "希望", "理想", "改善したい",
           "効率化", "自動化", "システム化", "デジタル化",
           "したい", "できるように", "なればいい", "なるといい",
           "導入したい", "使いたい", "実現したい"]
  | .O => ["反対", "抵抗", "無理", "やりたくない",
           "前もダメだった", "失敗した", "うまくいかなかった",
           "嫌", "面倒", "ストレス", "対立", "衝突",
           "やらされ", "強制", "納得できない",
           "理解されない", "協力してくれない", "押し付け"]
  | .T => ["うまくいっている", "成功", "順調", "問題ない",
           "満足", "良い", "便利", "助かっている", "効率的",
           "強み", "得意", "定着", "回っている", "機能している",
           "気に入っている", "使いやすい", "スムーズ",
           "うまく", "ちゃんと", "しっかり", "快適"]

/-- The distinct configured keywords of a voice literally contained in the text,
in configuration order. -/
def matchedKeywordsOf (text : String) (v : Voice) : List String :=
  (voiceKeywords v).filter (fun kw => strContains text kw)

/-- The per-voice score of PIVOTAnalyzer._classify_pivot:
min(min(count*0.2, 0.6) + (0.35 if a regex matched else 0), 0.95). -/
def voiceScore (pm : Voice → String → Bool) (text : String) (v : Voice) : ℚ :=
  let kw_score : ℚ := min ((matchedKeywordsOf text v).length * (0.2 : ℚ)) 0.6
  let pat_score : ℚ := if pm v text then 0.35 else 0
  min (kw_score + pat_score) 0.95

/-- Python max(keys, key=score) over the insertion-ordered candidates: the
first element attaining the maximum (a later element replaces the current best
only when strictly greater). -/
def firstMax (s : Voice × ℚ × List String) (rest : List (Voice × ℚ × List String)) :
    Voice × ℚ × List String :=
  rest.foldl (fun best c => if best.2.1 < c.2.1 then c else best) s

/-- The scores-dict entry of _classify_pivot: a voice enters the candidate
dict only when its score is above 0. -/
def pivotCandidate (pm : Voice → String → Bool) (text : String) (v : Voice) :
    Option (Voice × ℚ × List String) :=
  if 0 < voiceScore pm text v then
    some (v, voiceScore pm text v, matchedKeywordsOf text v)
  else none

/-- The candidate entries in dict insertion order (the fixed P,I,V,O,T order). -/
def pivotCandidates (pm : Voice → String → Bool) (text : String) :
    List (Voice × ℚ × List String) :=
  PIVOT_ALL.filterMap (pivotCandidate pm text)

/-- PIVOTAnalyzer._classify_pivot. -/
def classifyPivot (pm : Voice → String → Bool) (text : String) :
    Option (Voice × ℚ × List String) :=
  match pivotCandidates pm text with
  | [] => none
  | s :: rest => some (firstMax s rest)

/-- The temperature indicator word lists of PIVOTAnalyzer._detect_temperature. -/
def HIGH_INDICATORS : List String :=
  ["絶対", "本当に", "非常に", "とても", "すごく", "めちゃくちゃ", "いつも", "毎回", "必ず"]

def MEDIUM_INDICATORS : List String :=
  ["かなり", "結構", "わりと", "時々", "たまに", "よく"]

def LOW_INDICATORS : List String :=
  ["少し", "ちょっと", "多少", "若干", "たぶん", "おそらく"]

/-- PIVOTAnalyzer._detect_temperature. -/
def detectTemperature (text : String) : String :=
  if HIGH_INDICATORS.any (fun ind => strContains text ind) then "high"
  else if MEDIUM_INDICATORS.any (fun ind => strContains text ind) then "medium"
  else if LOW_INDICATORS.any (fun ind => strContains text ind) then "low"
  else "medium"

/-- PIVOTAnalyzer._truncate (text.replace("\n", " ") is a per-character
replacement since the needle is a single character). -/
def truncateText (text : String) (maxLen : Nat) : String :=
  let t := strTrim (String.mk (text.toList.map (fun c => if c = '\n' then ' ' else c)))
  if strLen t ≤ maxLen then t else String.mk (t.toList.take maxLen) ++ "..."

/-- PIVOTInsight dataclass (ids, timestamps and target layers omitted, see the
header comment). -/
structure PIVOTInsight where
  pivot_voice : Voice
  pivot_label : String
  pivot_score : Int
  title : String
  body : String
  confidence : ℚ
  temperature : String
  matched_keywords : List String
  intensity_score : ℚ
  degree_factor : ℚ
  certainty : ℚ
  reasoning : String
  deriving DecidableEq, Repr

/-- DOMAIN_PIVOT_WEIGHTS as an assoc list of per-voice weight tables. -/
def DOMAIN_PIVOT_WEIGHTS : List (String × (Voice → ℚ)) := [
  ("requirements", fun v => match v with
    | .P => 1.5 | .I => 1.0 | .V => 2.0 | .O => 0.8 | .T => 1.0),
  ("biz_analysis", fun v => match v with
    | .P => 2.0 | .I => 1.2 | .V => 1.0 | .O => 1.0 | .T => 1.5),
  ("hr_evaluation", fun v => match v with
    | .P => 1.0 | .I => 2.0 | .V => 1.5 | .O => 1.8 | .T => 1.2),
  ("daily_concerns", fun v => match v with
    | .P => 1.8 | .I => 2.0 | .V => 1.0 | .O => 1.2 | .T => 1.0),
  ("customer_voice", fun v => match v with
    | .P => 1.8 | .I => 1.0 | .V => 2.0 | .O => 1.2 | .T => 1.5),
  ("retrospective", fun v => match v with
    | .P => 1.5 | .I => 1.2 | .V => 1.5 | .O => 1.2 | .T => 1.8)]

/-- First-match assoc lookup (Python dict lookup on string keys). -/
def lookupWeights : List (String × (Voice → ℚ)) → String → Option (Voice → ℚ)
  | [], _ => none
  | (k, w) :: t, d => if k = d then some w else lookupWeights t d

/-- self.weights = DOMAIN_PIVOT_WEIGHTS.get(domain, {p: 1.0 for p in PIVOT.ALL}). -/
def weightsOf (domain : Option String) : Voice → ℚ :=
  match domain with
  | none => fun _ => 1
  | some d => (lookupWeights DOMAIN_PIVOT_WEIGHTS d).getD (fun _ => 1)

/-- PIVOTAnalyzer constructor state (patMatch abstracts the compiled per-voice
regexes, see the header comment). -/
structure Analyzer where
  domain : Option String
  min_confidence : ℚ := 0.3
  use_morphology : Bool := true
  split_by_sentence : Bool := true
  patMatch : Voice → String → Bool

/-- weighted_score of PIVOTAnalyzer._apply_domain_weights:
abs(intensity) * weights.get(voice, 1.0). -/
def weightedScore (A : Analyzer) (item : PIVOTInsight) : ℚ :=
  |item.intensity_score| * weightsOf A.domain item.pivot_voice

/-- Stable descending insert: a new element goes before the first existing
element whose key is not greater (so, among equal keys, after all earlier
input elements). -/
def insertDescBy {α : Type} (key : α → ℚ) (a : α) : List α → List α
  | [] => [a]
  | b :: t => if key a ≥ key b then a :: b :: t else b :: insertDescBy key a t

/-- Stable descending sort, modelling Python sorted(items, key=..., reverse=True). -/
def sortDescBy {α : Type} (key : α → ℚ) : List α → List α
  | [] => []
  | a :: t => insertDescBy key a (sortDescBy key t)

/-- PIVOTAnalyzer._apply_domain_weights. -/
def applyDomainWeights (A : Analyzer) (items : List PIVOTInsight) : List PIVOTInsight :=
  sortDescBy (weightedScore A) items

/-- The voice/confidence/keywords/reasoning/degree/certainty selection of
PIVOTAnalyzer._classify_sentence: morphology result accepted when it yields a
voice with confidence at least 0.6, lexical fallback otherwise; degree factor
and certainty come from morphology whenever it ran, and stay 1.0 when it is
disabled. -/
def classifyStep (A : Analyzer) (text : String) :
    Option (Voice × ℚ × List String × String × ℚ × ℚ) :=
  if A.use_morphology then
    let m := morphAnalyze text
    match inferPivotFromMorphology m with
    | (some mv, mc, mr) =>
      if mc ≥ 0.6 then
        some (mv, mc, m.matched_verbs ++ m.matched_adjectives, mr,
              m.degree_factor, m.certainty)
      else
        match classifyPivot A.patMatch text with
        | none => none
        | some (v, c, kws) => some (v, c, kws, "キーワードベース", m.degree_factor, m.certainty)
    | (none, _, _) =>
      match classifyPivot A.patMatch text with
      | none => none
      | some (v, c, kws) => some (v, c, kws, "キーワードベース", m.degree_factor, m.certainty)
  else
    match classifyPivot A.patMatch text with
    | none => none
    | some (v, c, kws) => some (v, c, kws, "キーワードベース", 1, 1)

/-- Construction of the PIVOTInsight record at the end of _classify_sentence:
base score from the fixed table and intensity = base * degree * certainty. -/
def mkInsight (text : String) (s : Voice × ℚ × List String × String × ℚ × ℚ) :
    PIVOTInsight :=
  { pivot_voice := s.1
    pivot_label := LABELS s.1
    pivot_score := SCORES s.1
    title := truncateText text 50
    body := text
    confidence := s.2.1
    temperature := detectTemperature text
    matched_keywords := s.2.2.1
    intensity_score := (SCORES s.1 : ℚ) * s.2.2.2.2.1 * s.2.2.2.2.2
    degree_factor := s.2.2.2.2.1
    certainty := s.2.2.2.2.2
    reasoning := s.2.2.2.1 }

/-- PIVOTAnalyzer._classify_sentence (uuid id, layer extraction and timestamp
lookup omitted). -/
def classifySentence (A : Analyzer) (text : String) : Option PIVOTInsight :=
  if strTrim text = "" then none
  else (classifyStep A text).map (mkInsight text)

/-- A sentence delimiter of _split_sentences: the char class [。．！？\n]. -/
def isDelim (c : Char) : Bool :=
  c = '。' || c = '．' || c = '！' || c = '？' || c = '\n'

/-- re.split(r"[。．！？\n]+", text) over char lists: the Bool flag records
whether we are inside a delimiter run (runs collapse into one boundary; a
leading run yields an empty first field, a trailing run an empty last field). -/
def splitRunsAux : Bool → List Char → List Char → List (List Char)
  | _, [], cur => [cur.reverse]
  | inRun, c :: t, cur =>
    if isDelim c then
      if inRun then splitRunsAux true t []
      else cur.reverse :: splitRunsAux true t []
    else splitRunsAux false t (c :: cur)

/-- The raw fields produced by re.split before trimming and length filtering. -/
def rawFragments (text : String) : List String :=
  (splitRunsAux false text.toList []).map (fun cs => String.mk cs)

/-- PIVOTAnalyzer._split_sentences. -/
def splitSentences (A : Analyzer) (text : String) : List String :=
  if !A.split_by_sentence then [text]
  else ((rawFragments text).map (fun s => strTrim s)).filter
    (fun s => decide (s ≠ "" ∧ 10 ≤ strLen s))

/-- PIVOTAnalysisResult, restricted to the fields the verified claims are
about (by_process/by_tool/stats track the omitted layer extractor). -/
structure AnalysisResult where
  items : List PIVOTInsight
  by_pivot : Voice → List PIVOTInsight
  total_score : Int
  sentiment_index : ℚ

/-- The confidence floor of the analyze_video loop:
`if insight and insight.confidence >= self.min_confidence`. -/
def keepIf (A : Analyzer) (i : PIVOTInsight) : Option PIVOTInsight :=
  if i.confidence ≥ A.min_confidence then some i else none

/-- The per-sentence loop body of analyze_video: keep an insight only when one
was produced and its confidence reaches min_confidence. -/
def keptInsights (A : Analyzer) (sentences : List String) : List PIVOTInsight :=
  sentences.filterMap (fun s => (classifySentence A s).bind (keepIf A))

/-- The analysis returned for an empty or missing transcript. -/
def zeroAnalysis : AnalysisResult :=
  { items := [], by_pivot := fun _ => [], total_score := 0, sentiment_index := 0 }

/-- The non-empty branch of analyze_video: classify each sentence, keep the
confident insights, re-rank them by domain weight, and aggregate the total
score (sum of pivot_score) and the sentiment index (total over count, or 0.0
with no insights). -/
def analysisOf (A : Analyzer) (full_text : String) : AnalysisResult :=
  { items := applyDomainWeights A (keptInsights A (splitSentences A full_text))
    by_pivot := fun v =>
      (keptInsights A (splitSentences A full_text)).filter
        (fun i => decide (i.pivot_voice = v))
    total_score :=
      ((applyDomainWeights A (keptInsights A (splitSentences A full_text))).map
        (fun i => i.pivot_score)).sum
    sentiment_index :=
      if (applyDomainWeights A (keptInsights A (splitSentences A full_text))).length ≠ 0 then
        ((((applyDomainWeights A (keptInsights A (splitSentences A full_text))).map
          (fun i => i.pivot_score)).sum : Int) : ℚ) /
          ((applyDomainWeights A (keptInsights A (splitSentences A full_text))).length : ℚ)
      else 0 }

/-- PIVOTAnalyzer.analyze_video, on the transcript text (video metadata is
pass-through).  A missing transcript yields full_text = "". -/
def analyzeVideo (A : Analyzer) (transcript : Option String) : AnalysisResult :=
  if transcript.getD "" = "" then zeroAnalysis
  else analysisOf A (transcript.getD "")

/-! Specification-side definitions: these restate the classification policy in
the words of the specification, to be compared with the source translation. -/

/-- The orchestration policy as the specification words it: when morphology is
enabled its inference is accepted exactly when it yields a voice with
confidence at least 0.6, and in every other situation the lexical classifier
decides; the outcome is the accepted voice and confidence, or nothing. -/
def acceptedClassification (A : Analyzer) (text : String) : Option (Voice × ℚ) :=
  let lexical := (classifyPivot A.patMatch text).map (fun r => (r.1, r.2.1))
  if A.use_morphology then
    match inferPivotFromMorphology (morphAnalyze text) with
    | (some v, c, _) => if c ≥ 0.6 then some (v, c) else lexical
    | (none, _, _) => lexical
  else lexical

/-- The degree factors of all configured adverbs contained in the sentence, in
configuration order (the specification's "matched factors"). -/
def matchedFactors (text : String) : List ℚ :=
  (ADVERB_TO_DEGREE.filter (fun p => strContains text p.1)).map (fun p => p.2)

/-! Concrete inputs used to instantiate the verified statements. -/

/-- A pattern oracle under which no per-voice regex matches. -/
def noPat : Voice → String → Bool := fun _ _ => false

/-- PIVOTAnalyzer() with all defaults (domain None, min_confidence 0.3,
use_morphology True, split_by_sentence True). -/
def defaultAnalyzer : Analyzer :=
  { domain := none, min_confidence := 0.3, use_morphology := true,
    split_by_sentence := true, patMatch := noPat }

/-- PIVOTAnalyzer(use_morphology=False), otherwise defaults. -/
def lexicalOnlyAnalyzer : Analyzer :=
  { domain := none, min_confidence := 0.3, use_morphology := false,
    split_by_sentence := true, patMatch := noPat }

/-- The Scenario B sentence of the specification. -/
def scenarioBSentence : String := "自動化できたらとても助かる"

/-- A sentence classified by the lexical path (keywords 問題 and 面倒). -/
def lexicalSentence : String := "この作業には問題があって面倒です"

/-- A sentence in which no configured signal fires at all. -/
def neutralSentence : String := "あいうえおかきくけこさしすせそ"

/-- A transcript with a too-short first fragment before the delimiter. -/
def shortFragmentText : String := "短い。これは十分に長い文章であると思います"

/-- A sentence containing both an amplifying and an attenuating degree adverb. -/
def mixedAdverbSentence : String := "非常にちょっと困ります"

/-- The insight the default analyzer produces for the Scenario B sentence. -/
def insScenarioB : PIVOTInsight :=
  { pivot_voice := .T, pivot_label := "Traction", pivot_score := 2,
    title := scenarioBSentence, body := scenarioBSentence, confidence := 0.7,
    temperature := "high", matched_keywords := ["助かる"],
    intensity_score := 2.6, degree_factor := 1.3, certainty := 1,
    reasoning := "成功系動詞" }

/-- The insight the morphology-disabled analyzer produces for lexicalSentence. -/
def insLexicalP : PIVOTInsight :=
  { pivot_voice := .P, pivot_label := "Pain", pivot_score := -2,
    title := lexicalSentence, body := lexicalSentence, confidence := 0.4,
    temperature := "medium", matched_keywords := ["問題", "面倒"],
    intensity_score := -2, degree_factor := 1, certainty := 1,
    reasoning := "キーワードベース" }

/-! General lemmas about the stable descending sort. -/

theorem perm_insertDescBy {α : Type} (key : α → ℚ) (a : α) (l : List α) :
    (insertDescBy key a l).Perm (a :: l) := by
  induction l with
  | nil => simp [insertDescBy]
  | cons b t ih =>
    by_cases h : key a ≥ key b
    · simp [insertDescBy, h]
    · simp only [insertDescBy, if_neg h]
      exact (ih.cons b).trans (List.Perm.swap a b t)

theorem perm_sortDescBy {α : Type} (key : α → ℚ) (l : List α) :
    (sortDescBy key l).Perm l := by
  induction l with
  | nil => simp [sortDescBy]
  | cons a t ih =>
    exact (perm_insertDescBy key a (sortDescBy key t)).trans (ih.cons a)

theorem mem_insertDescBy {α : Type} {key : α → ℚ} {a x : α} {l : List α} :
    x ∈ insertDescBy key a l ↔ x = a ∨ x ∈ l := by
  rw [(perm_insertDescBy key a l).mem_iff, List.mem_cons]

theorem mem_sortDescBy {α : Type} {key : α → ℚ} {x : α} {l : List α} :
    x ∈ sortDescBy key l ↔ x ∈ l :=
  (perm_sortDescBy key l).mem_iff

theorem sorted_insertDescBy {α : Type} (key : α → ℚ) (a : α) (l : List α)
    (h : l.Pairwise (fun x y => key y ≤ key x)) :
    (insertDescBy key a l).Pairwise (fun x y => key y ≤ key x) := by
  induction l with
  | nil => simp [insertDescBy]
  | cons b t ih =>
    rcases List.pairwise_cons.mp h with ⟨hb, ht⟩
    by_cases hab : key a ≥ key b
    · simp only [insertDescBy, if_pos hab]
      refine List.pairwise_cons.mpr ⟨?_, h⟩
      intro y hy
      rcases List.mem_cons.mp hy with rfl | hyt
      · exact hab
      · exact (hb y hyt).trans hab
    · simp only [insertDescBy, if_neg hab]
      refine List.pairwise_cons.mpr ⟨?_, ih ht⟩
      intro y hy
      rcases mem_insertDescBy.mp hy with rfl | hyt
      · exact le_of_lt (lt_of_not_ge hab)
      · exact hb y hyt

theorem sorted_sortDescBy {α : Type} (key : α → ℚ) (l : List α) :
    (sortDescBy key l).Pairwise (fun x y => key y ≤ key x) := by
  induction l with
  | nil => simp [sortDescBy]
  | cons a t ih => exact sorted_insertDescBy key a (sortDescBy key t) ih

theorem filter_insertDescBy {α : Type} (key : α → ℚ) (c : ℚ) (a : α) (l : List α) :
    (insertDescBy key a l).filter (fun x => decide (key x = c)) =
      if key a = c then a :: l.filter (fun x => decide (key x = c))
      else l.filter (fun x => decide (key x = c)) := by
  induction l with
  | nil => by_cases hc : key a = c <;> simp [insertDescBy, List.filter, hc]
  | cons b t ih =>
    by_cases hab : key a ≥ key b
    · rw [insertDescBy, if_pos hab]
      by_cases hc : key a = c <;> simp [List.filter_cons, hc]
    · have hba : key a < key b := lt_of_not_ge hab
      rw [insertDescBy, if_neg hab, List.filter_cons, List.filter_cons, ih]
      by_cases hc : key a = c
      · have hbc : ¬ (key b = c) := by
          intro hbc
          exact absurd (hbc.trans hc.symm) (ne_of_gt hba)
        simp [hc, hbc]
      · simp [hc]

theorem filter_sortDescBy {α : Type} (key : α → ℚ) (c : ℚ) (l : List α) :
    (sortDescBy key l).filter (fun x => decide (key x = c)) =
      l.filter (fun x => decide (key x = c)) := by
  induction l with
  | nil => simp [sortDescBy]
  | cons a t ih =>
    rw [sortDescBy, filter_insertDescBy, ih, List.filter_cons]
    by_cases hc : key a = c <;> simp [hc]

/-! Structural lemmas about the classification pipeline. -/

theorem mkInsight_fields (text : String) (s : Voice × ℚ × List String × String × ℚ × ℚ) :
    (mkInsight text s).pivot_voice = s.1 ∧
    (mkInsight text s).pivot_score = SCORES s.1 ∧
    (mkInsight text s).confidence = s.2.1 ∧
    (mkInsight text s).body = text ∧
    (mkInsight text s).degree_factor = s.2.2.2.2.1 ∧
    (mkInsight text s).certainty = s.2.2.2.2.2 ∧
    (mkInsight text s).intensity_score =
      (SCORES s.1 : ℚ) * s.2.2.2.2.1 * s.2.2.2.2.2 := by
  exact ⟨rfl, rfl, rfl, rfl, rfl, rfl, rfl⟩

theorem classifySentence_eq_some {A : Analyzer} {text : String} {i : PIVOTInsight}
    (h : classifySentence A text = some i) :
    strTrim text ≠ "" ∧ ∃ s, classifyStep A text = some s ∧ i = mkInsight text s := by
  unfold classifySentence at h
  split at h
  · exact absurd h (by simp)
  · rename_i htrim
    rcases Option.map_eq_some'.mp h with ⟨s, hs, hi⟩
    exact ⟨htrim, s, hs, hi.symm⟩

theorem classifySentence_body {A : Analyzer} {text : String} {i : PIVOTInsight}
    (h : classifySentence A text = some i) : i.body = text := by
  rcases classifySentence_eq_some h with ⟨-, s, -, rfl⟩
  rfl

theorem classifySentence_intensity {A : Analyzer} {text : String} {i : PIVOTInsight}
    (h : classifySentence A text = some i) :
    i.intensity_score = (SCORES i.pivot_voice : ℚ) * i.degree_factor * i.certainty ∧
    i.pivot_score = SCORES i.pivot_voice := by
  rcases classifySentence_eq_some h with ⟨-, s, -, rfl⟩
  exact ⟨rfl, rfl⟩

theorem keepIf_eq_some {A : Analyzer} {i j : PIVOTInsight} :
    keepIf A i = some j ↔ i = j ∧ A.min_confidence ≤ i.confidence := by
  unfold keepIf
  by_cases hc : i.confidence ≥ A.min_confidence
  · rw [if_pos hc]
    constructor
    · intro h; cases h; exact ⟨rfl, hc⟩
    · rintro ⟨rfl, -⟩; rfl
  · rw [if_neg hc]
    constructor
    · intro h; exact absurd h (by simp)
    · rintro ⟨rfl, h⟩; exact absurd h hc

theorem mem_keptInsights {A : Analyzer} {ss : List String} {i : PIVOTInsight} :
    i ∈ keptInsights A ss ↔
      ∃ s ∈ ss, classifySentence A s = some i ∧ A.min_confidence ≤ i.confidence := by
  unfold keptInsights
  rw [List.mem_filterMap]
  constructor
  · rintro ⟨s, hs, hf⟩
    rcases Option.bind_eq_some.mp hf with ⟨j, hcs, hkeep⟩
    rcases keepIf_eq_some.mp hkeep with ⟨rfl, hc⟩
    exact ⟨s, hs, hcs, hc⟩
  · rintro ⟨s, hs, hcs, hc⟩
    exact ⟨s, hs, by rw [hcs]; exact Option.bind_eq_some.mpr ⟨i, rfl, keepIf_eq_some.mpr ⟨rfl, hc⟩⟩⟩

theorem mem_analyzeVideo_items {A : Analyzer} {t : Option String} {i : PIVOTInsight}
    (h : i ∈ (analyzeVideo A t).items) :
    ∃ s ∈ splitSentences A (t.getD ""),
      classifySentence A s = some i ∧ A.min_confidence ≤ i.confidence := by
  unfold analyzeVideo at h
  split at h
  · exact absurd h (by simp [zeroAnalysis])
  · exact mem_keptInsights.mp (mem_sortDescBy.mp h)

/-- C8: for a missing transcript and for an empty transcript text,
analyze_video returns an analysis with an empty insight list, total score 0,
sentiment index 0.0 and all per-voice insight lists empty, without error. -/
theorem emptyTranscript_yields_zero_analysis (A : Analyzer) :
    ((analyzeVideo A none).items = [] ∧
     (analyzeVideo A none).total_score = 0 ∧
     (analyzeVideo A none).sentiment_index = 0 ∧
     (∀ v, (analyzeVideo A none).by_pivot v = [])) ∧
    ((analyzeVideo A (some "")).items = [] ∧
     (analyzeVideo A (some "")).total_score = 0 ∧
     (analyzeVideo A (some "")).sentiment_index = 0 ∧
     (∀ v, (analyzeVideo A (some "")).by_pivot v = [])) := by
  refine ⟨⟨?_, ?_, ?_, fun v => ?_⟩, ⟨?_, ?_, ?_, fun v => ?_⟩⟩ <;> rfl

/-- C4: every insight in an analysis result has intensity score equal to the
fixed base score of its voice times its degree factor times its certainty,
and stores that same fixed base score as pivot_score. -/
theorem insight_intensity_eq_base_mul_degree_mul_certainty
    (A : Analyzer) (t : Option String) (i : PIVOTInsight)
    (hi : i ∈ (analyzeVideo A t).items) :
    i.intensity_score = (SCORES i.pivot_voice : ℚ) * i.degree_factor * i.certainty ∧
    i.pivot_score = SCORES i.pivot_voice := by
  rcases mem_analyzeVideo_items hi with ⟨s, -, hcs, -⟩
  exact classifySentence_intensity hcs

/-- C4 witness: instantiation on the Scenario B sentence. -/
theorem insight_intensity_witness :
    insScenarioB.intensity_score =
      (SCORES insScenarioB.pivot_voice : ℚ) * insScenarioB.degree_factor * insScenarioB.certainty ∧
    insScenarioB.pivot_score = SCORES insScenarioB.pivot_voice :=
  insight_intensity_eq_base_mul_degree_mul_certainty defaultAnalyzer
    (some scenarioBSentence) insScenarioB (by decide)

theorem classifyStep_no_morph {A : Analyzer} {text : String}
    {s : Voice × ℚ × List String × String × ℚ × ℚ}
    (hm : A.use_morphology = false) (hs : classifyStep A text = some s) :
    s.2.2.2.2.1 = 1 ∧ s.2.2.2.2.2 = 1 := by
  unfold classifyStep at hs
  rw [hm] at hs
  simp only [Bool.false_eq_true, if_false] at hs
  rcases hp : classifyPivot A.patMatch text with - | ⟨v, c, kws⟩ <;> rw [hp] at hs
  · exact absurd hs (by simp)
  · cases hs
    exact ⟨rfl, rfl⟩

/-- C10: with the morphology engine disabled, every produced insight has
degree factor exactly 1, certainty exactly 1, and intensity score equal to
the fixed base score of its voice. -/
theorem no_morphology_insights_have_unit_factors
    (A : Analyzer) (t : Option String) (i : PIVOTInsight)
    (hm : A.use_morphology = false) (hi : i ∈ (analyzeVideo A t).items) :
    i.degree_factor = 1 ∧ i.certainty = 1 ∧
    i.intensity_score = (SCORES i.pivot_voice : ℚ) := by
  rcases mem_analyzeVideo_items hi with ⟨s, -, hcs, -⟩
  rcases classifySentence_eq_some hcs with ⟨-, st, hstep, rfl⟩
  rcases classifyStep_no_morph hm hstep with ⟨h1, h2⟩
  refine ⟨h1, h2, ?_⟩
  show (SCORES st.1 : ℚ) * st.2.2.2.2.1 * st.2.2.2.2.2 = (SCORES st.1 : ℚ)
  rw [h1, h2, mul_one, mul_one]

/-- C10 witness: instantiation on a keyword-classified sentence with the
morphology engine disabled. -/
theorem no_morphology_witness :
    insLexicalP.degree_factor = 1 ∧ insLexicalP.certainty = 1 ∧
    insLexicalP.intensity_score = (SCORES insLexicalP.pivot_voice : ℚ) :=
  no_morphology_insights_have_unit_factors lexicalOnlyAnalyzer
    (some lexicalSentence) insLexicalP rfl (by decide)

/-- C6: for every analysis, the total score is the sum of the fixed base
scores of the produced insights' voices, and the sentiment index is the total
score divided by the insight count, or exactly 0 when there are none. -/
theorem total_score_and_sentiment_index (A : Analyzer) (t : Option String) :
    (analyzeVideo A t).total_score =
      ((analyzeVideo A t).items.map (fun i => SCORES i.pivot_voice)).sum ∧
    (analyzeVideo A t).sentiment_index =
      (if (analyzeVideo A t).items.length = 0 then 0
       else ((analyzeVideo A t).total_score : ℚ) / ((analyzeVideo A t).items.length : ℚ)) := by
  unfold analyzeVideo
  split
  · exact ⟨rfl, rfl⟩
  · constructor
    · simp only [analysisOf]
      refine congrArg List.sum (List.map_congr_left ?_)
      intro i hi
      rcases mem_keptInsights.mp (mem_sortDescBy.mp hi) with ⟨s, -, hcs, -⟩
      exact (classifySentence_intensity hcs).2
    · simp only [analysisOf]
      by_cases hlen :
        (applyDomainWeights A (keptInsights A (splitSentences A (t.getD "")))).length = 0
      · rw [if_neg (by simpa using hlen), if_pos hlen]
      · rw [if_pos hlen, if_neg hlen]

/-- The morphology-accepted branch of _classify_sentence: when morphology is
enabled and its inference yields a voice with confidence at least 0.6, the
sentence is classified by that inference, with the morphology degree factor
and certainty. -/
theorem classifyStep_morph_accept (A : Analyzer) (text : String)
    (hm : A.use_morphology = true) (v : Voice) (c : ℚ) (r : String)
    (hinf : inferPivotFromMorphology (morphAnalyze text) = (some v, c, r))
    (hc : c ≥ 0.6) :
    classifyStep A text = some (v, c,
      (morphAnalyze text).matched_verbs ++ (morphAnalyze text).matched_adjectives, r,
      (morphAnalyze text).degree_factor, (morphAnalyze text).certainty) := by
  unfold classifyStep
  rw [hm]
  simp only [if_true]
  rw [hinf]
  simp only [if_pos hc]

/-- C1 counterexample: on the Scenario B sentence, the default per-sentence
pipeline produces voice T, not voice V. -/
theorem scenarioB_not_vision :
    (classifySentence defaultAnalyzer scenarioBSentence).map (fun i => i.pivot_voice) =
      some Voice.T ∧
    (classifySentence defaultAnalyzer scenarioBSentence).map (fun i => i.pivot_voice) ≠
      some Voice.V := by
  constructor <;> decide

/-- C1 (amended): on the Scenario B sentence the per-sentence pipeline, with
any pattern oracle, produces an insight with voice T and confidence at least
0.6 (the SUCCESS verb 助かる drives the morphology inference to Traction). -/
theorem scenarioB_classified_as_traction (pm : Voice → String → Bool) :
    ∃ i, classifySentence { defaultAnalyzer with patMatch := pm } scenarioBSentence = some i ∧
      i.pivot_voice = Voice.T ∧ i.confidence ≥ 0.6 := by
  have hstep := classifyStep_morph_accept { defaultAnalyzer with patMatch := pm }
    scenarioBSentence rfl Voice.T 0.7 "成功系動詞" (by decide) (by norm_num)
  refine ⟨mkInsight scenarioBSentence (Voice.T, 0.7,
    (morphAnalyze scenarioBSentence).matched_verbs ++
      (morphAnalyze scenarioBSentence).matched_adjectives, "成功系動詞",
    (morphAnalyze scenarioBSentence).degree_factor,
    (morphAnalyze scenarioBSentence).certainty), ?_, rfl, ?_⟩
  case refine_2 =>
    show (0.6 : ℚ) ≤ 0.7
    norm_num
  unfold classifySentence
  rw [if_neg (by decide), hstep]
  rfl

/-- C9: a segmentation fragment that is empty after trimming or shorter than
10 characters is dropped by _split_sentences and yields no insight in the
document analysis. -/
theorem short_fragment_yields_no_insight (A : Analyzer) (text f : String)
    (hsplit : A.split_by_sentence = true) (_hf : f ∈ rawFragments text)
    (hshort : strTrim f = "" ∨ strLen (strTrim f) < 10) :
    strTrim f ∉ splitSentences A text ∧
    ∀ i ∈ (analyzeVideo A (some text)).items, i.body ≠ strTrim f := by
  have hnot : strTrim f ∉ splitSentences A text := by
    intro hmem
    unfold splitSentences at hmem
    rw [hsplit] at hmem
    simp only [Bool.not_true, Bool.false_eq_true, if_false] at hmem
    have hpred := List.of_mem_filter hmem
    rcases of_decide_eq_true hpred with ⟨hne, hlen⟩
    rcases hshort with h | h
    · exact hne h
    · exact absurd hlen (not_le.mpr h)
  refine ⟨hnot, ?_⟩
  intro i hi hbody
  rcases mem_analyzeVideo_items hi with ⟨s, hsmem, hcs, -⟩
  have hb : i.body = s := classifySentence_body hcs
  rw [hbody] at hb
  exact hnot (hb ▸ hsmem)

theorem lexStep_proj (o : Option (Voice × ℚ × List String)) (rs : String) (d1 d2 : ℚ) :
    (match o with
      | none => none
      | some (v, c, kws) => some (v, c, kws, rs, d1, d2)).map
        (fun s : Voice × ℚ × List String × String × ℚ × ℚ => (s.1, s.2.1)) =
      o.map (fun r => (r.1, r.2.1)) := by
  rcases o with - | ⟨v, c, kws⟩ <;> rfl

/-- The voice and confidence selected by _classify_sentence agree with the
specification's acceptance policy, for every sentence and configuration. -/
theorem classifyStep_voice_conf (A : Analyzer) (text : String) :
    (classifyStep A text).map (fun s => (s.1, s.2.1)) =
      acceptedClassification A text := by
  unfold classifyStep acceptedClassification
  by_cases hm : A.use_morphology = true
  · rw [hm]
    simp only [if_true]
    rcases hinf : inferPivotFromMorphology (morphAnalyze text) with ⟨v?, c, r⟩
    rcases v? with - | v
    · exact lexStep_proj _ _ _ _
    · dsimp only
      by_cases hc : c ≥ 0.6
      · rw [if_pos hc, if_pos hc]
        rfl
      · rw [if_neg hc, if_neg hc]
        exact lexStep_proj _ _ _ _
  · have hm' : A.use_morphology = false := by
      rcases hb : A.use_morphology
      · rfl
      · exact absurd hb hm
    rw [hm']
    simp only [Bool.false_eq_true, if_false]
    exact lexStep_proj _ _ _ _

/-- C2: per sentence, the morphology inference is accepted exactly when it
yields a voice with confidence at least 0.6, with the lexical classifier as
fallback in every other case; and a sentence whose accepted confidence is
missing or below min_confidence contributes no insight to the document
analysis. -/
theorem classification_policy :
    (∀ (A : Analyzer) (text : String), strTrim text ≠ "" →
      (classifySentence A text).map (fun i => (i.pivot_voice, i.confidence)) =
        acceptedClassification A text) ∧
    (∀ (A : Analyzer) (t s : String), s ∈ splitSentences A t →
      (acceptedClassification A s = none ∨
        ∃ v c, acceptedClassification A s = some (v, c) ∧ c < A.min_confidence) →
      ∀ i ∈ (analyzeVideo A (some t)).items, i.body ≠ s) := by
  have hpart1 : ∀ (A : Analyzer) (text : String), strTrim text ≠ "" →
      (classifySentence A text).map (fun i => (i.pivot_voice, i.confidence)) =
        acceptedClassification A text := by
    intro A text htrim
    unfold classifySentence
    rw [if_neg htrim, Option.map_map, ← classifyStep_voice_conf A text]
    rfl
  refine ⟨hpart1, ?_⟩
  intro A t s hs hbad i hi hbody
  rcases mem_analyzeVideo_items hi with ⟨s', hs', hcs, hconf⟩
  have hb : i.body = s' := classifySentence_body hcs
  rw [hbody] at hb
  rw [← hb] at hcs
  have htrim : strTrim s ≠ "" := by
    intro h0
    unfold classifySentence at hcs
    rw [if_pos h0] at hcs
    exact absurd hcs (by simp)
  have hacc := hpart1 A s htrim
  rw [hcs] at hacc
  rcases hbad with hnone | ⟨v, c, hsome, hlt⟩
  · rw [hnone] at hacc
    exact absurd hacc (by simp)
  · rw [hsome] at hacc
    have : (i.pivot_voice, i.confidence) = (v, c) := by
      exact Option.some_injective _ hacc
    have hcconf : c = i.confidence := by
      have := congrArg Prod.snd this
      exact this.symm
    rw [hcconf] at hlt
    exact absurd hconf (not_le.mpr hlt)

/-- C2 witness: instantiation of both parts on concrete sentences (a
keyword-classified sentence, and a sentence with no signal at all). -/
theorem classification_policy_witness :
    (classifySentence defaultAnalyzer lexicalSentence).map
        (fun i => (i.pivot_voice, i.confidence)) =
      acceptedClassification defaultAnalyzer lexicalSentence ∧
    ∀ i ∈ (analyzeVideo defaultAnalyzer (some neutralSentence)).items,
      i.body ≠ neutralSentence :=
  ⟨classification_policy.1 defaultAnalyzer lexicalSentence (by decide),
   classification_policy.2 defaultAnalyzer neutralSentence neutralSentence
     (by decide) (Or.inl (by decide))⟩

/-- C7: the domain-weight re-rank returns a permutation of the insight list,
ordered by weight(voice) * |intensity| descending, stably (insights with equal
weighted intensity keep their original relative order, expressed by filter
preservation); the weight table is the per-domain table, and all weights are 1
for an absent or unrecognized domain. -/
theorem domain_weight_rerank (A : Analyzer) (items : List PIVOTInsight) :
    (applyDomainWeights A items).Perm items ∧
    (applyDomainWeights A items).Pairwise
      (fun x y => weightedScore A y ≤ weightedScore A x) ∧
    (∀ c : ℚ, (applyDomainWeights A items).filter
        (fun x => decide (weightedScore A x = c)) =
      items.filter (fun x => decide (weightedScore A x = c))) ∧
    (A.domain = none → ∀ v, weightsOf A.domain v = 1) ∧
    (∀ d, A.domain = some d → lookupWeights DOMAIN_PIVOT_WEIGHTS d = none →
      ∀ v, weightsOf A.domain v = 1) := by
  refine ⟨perm_sortDescBy _ _, sorted_sortDescBy _ _,
    fun c => filter_sortDescBy _ _ _, ?_, ?_⟩
  · intro h v
    rw [h]
    rfl
  · intro d hd hl v
    rw [hd]
    show ((lookupWeights DOMAIN_PIVOT_WEIGHTS d).getD (fun _ => 1)) v = 1
    rw [hl]
    rfl

/-- C7 witness: for the default analyzer (domain None) every weight is 1. -/
theorem domain_weight_rerank_witness :
    weightsOf defaultAnalyzer.domain Voice.P = 1 :=
  (domain_weight_rerank defaultAnalyzer []).2.2.2.1 rfl Voice.P

/-- C9 witness: the fragment 短い of a concrete transcript is dropped. -/
theorem short_fragment_witness :
    strTrim "短い" ∉ splitSentences defaultAnalyzer shortFragmentText ∧
    ∀ i ∈ (analyzeVideo defaultAnalyzer (some shortFragmentText)).items,
      i.body ≠ strTrim "短い" :=
  short_fragment_yields_no_insight defaultAnalyzer shortFragmentText "短い"
    rfl (by decide) (Or.inr (by decide))

/-! Lemmas about the lexical classifier. -/

theorem voiceScore_nonneg (pm : Voice → String → Bool) (text : String) (v : Voice) :
    0 ≤ voiceScore pm text v := by
  unfold voiceScore
  by_cases hp : pm v text <;> simp only [hp, if_true, if_false] <;> positivity

theorem mem_PIVOT_ALL (v : Voice) : v ∈ PIVOT_ALL := by
  cases v <;> simp [PIVOT_ALL]

theorem pivotCandidate_eq_some {pm : Voice → String → Bool} {text : String}
    {v : Voice} {x : Voice × ℚ × List String} :
    pivotCandidate pm text v = some x ↔
      0 < voiceScore pm text v ∧
      x = (v, voiceScore pm text v, matchedKeywordsOf text v) := by
  unfold pivotCandidate
  by_cases hv : 0 < voiceScore pm text v
  · rw [if_pos hv]
    constructor
    · intro h
      cases h
      exact ⟨hv, rfl⟩
    · rintro ⟨-, rfl⟩
      rfl
  · rw [if_neg hv]
    constructor
    · intro h
      exact absurd h (by simp)
    · rintro ⟨h, -⟩
      exact absurd h hv

theorem pivotCandidates_pairwise (pm : Voice → String → Bool) (text : String) :
    (pivotCandidates pm text).Pairwise (fun a b => voiceIdx a.1 < voiceIdx b.1) := by
  have hall : PIVOT_ALL.Pairwise (fun a b => voiceIdx a < voiceIdx b) := by decide
  refine hall.filterMap (pivotCandidate pm text) ?_
  intro a a' hR b hb b' hb'
  have hb1 : b.1 = a := by
    rcases pivotCandidate_eq_some.mp (Option.mem_def.mp hb) with ⟨-, rfl⟩
    rfl
  have hb1' : b'.1 = a' := by
    rcases pivotCandidate_eq_some.mp (Option.mem_def.mp hb') with ⟨-, rfl⟩
    rfl
  rw [hb1, hb1']
  exact hR

theorem firstMax_split :
    ∀ (rest : List (Voice × ℚ × List String)) (s : Voice × ℚ × List String),
    ∃ l₁ l₂, s :: rest = l₁ ++ firstMax s rest :: l₂ ∧
      (∀ y ∈ l₁, y.2.1 < (firstMax s rest).2.1) ∧
      (∀ y ∈ l₂, y.2.1 ≤ (firstMax s rest).2.1) := by
  intro rest
  induction rest with
  | nil =>
    intro s
    refine ⟨[], [], rfl, ?_, ?_⟩ <;> intro y hy <;> exact absurd hy (List.not_mem_nil y)
  | cons cnd t ih =>
    intro s
    have hstep : firstMax s (cnd :: t) = firstMax (if s.2.1 < cnd.2.1 then cnd else s) t := rfl
    by_cases h : s.2.1 < cnd.2.1
    · rw [hstep, if_pos h]
      obtain ⟨l₁, l₂, heq, h₁, h₂⟩ := ih cnd
      have hcr : cnd.2.1 ≤ (firstMax cnd t).2.1 := by
        rcases l₁ with - | ⟨a, l₁'⟩
        · simp only [List.nil_append, List.cons.injEq] at heq
          rw [← heq.1]
        · simp only [List.cons_append, List.cons.injEq] at heq
          refine le_of_lt (h₁ cnd ?_)
          rw [heq.1]
          exact List.mem_cons_self a l₁'
      refine ⟨s :: l₁, l₂, ?_, ?_, h₂⟩
      · rw [List.cons_append, ← heq]
      · intro y hy
        rcases List.mem_cons.mp hy with rfl | hyl
        · exact h.trans_le hcr
        · exact h₁ y hyl
    · rw [hstep, if_neg h]
      obtain ⟨l₁, l₂, heq, h₁, h₂⟩ := ih s
      rcases l₁ with - | ⟨a, l₁'⟩
      · simp only [List.nil_append, List.cons.injEq] at heq
        refine ⟨[], cnd :: l₂, ?_, ?_, ?_⟩
        · rw [List.nil_append, ← heq.1, ← heq.2]
        · intro y hy
          exact absurd hy (List.not_mem_nil y)
        · intro y hy
          rcases List.mem_cons.mp hy with rfl | hyl
          · rw [← heq.1]
            exact not_lt.mp h
          · exact h₂ y hyl
      · simp only [List.cons_append, List.cons.injEq] at heq
        refine ⟨s :: cnd :: l₁', l₂, ?_, ?_, h₂⟩
        · rw [List.cons_append, List.cons_append, ← heq.2]
        · have hsr : s.2.1 < (firstMax s t).2.1 := by
            have ha := h₁ a (List.mem_cons_self a l₁')
            rwa [← heq.1] at ha
          intro y hy
          rcases List.mem_cons.mp hy with rfl | hy'
          · exact hsr
          · rcases List.mem_cons.mp hy' with rfl | hy''
            · exact (not_lt.mp h).trans_lt hsr
            · exact h₁ y (List.mem_cons_of_mem a hy'')

set_option maxHeartbeats 2000000 in
/-- C3: the lexical classifier scores each voice as
min(min(count*0.2, 0.6) + (0.35 on regex match), 0.95); only voices scoring
above 0 are candidates; the winner is the first voice in P,I,V,O,T order
attaining the maximum score, returned with its score and matched keywords;
and no result is returned exactly when every voice scores 0. -/
theorem lexical_classifier_scoring (pm : Voice → String → Bool) (text : String) :
    (classifyPivot pm text = none ↔ ∀ v : Voice, voiceScore pm text v = 0) ∧
    (∀ v c kws, classifyPivot pm text = some (v, c, kws) →
      c = voiceScore pm text v ∧ 0 < c ∧ kws = matchedKeywordsOf text v ∧
      (∀ w, voiceScore pm text w ≤ c) ∧
      (∀ w, voiceIdx w < voiceIdx v → voiceScore pm text w < c)) := by
  constructor
  · constructor
    · intro hnone v
      have hcand : pivotCandidates pm text = [] := by
        unfold classifyPivot at hnone
        rcases hc : pivotCandidates pm text with - | ⟨s, rest⟩
        · rfl
        · rw [hc] at hnone
          exact absurd hnone (by simp)
      have hv := List.filterMap_eq_nil_iff.mp hcand v (mem_PIVOT_ALL v)
      unfold pivotCandidate at hv
      by_cases hvs : 0 < voiceScore pm text v
      · rw [if_pos hvs] at hv
        exact absurd hv (by simp)
      · exact le_antisymm (not_lt.mp hvs) (voiceScore_nonneg pm text v)
    · intro hall
      unfold classifyPivot
      have hcand : pivotCandidates pm text = [] := by
        refine List.filterMap_eq_nil_iff.mpr ?_
        intro v hv
        unfold pivotCandidate
        rw [if_neg]
        rw [hall v]
        exact lt_irrefl 0
      rw [hcand]
  · intro v c kws hsome
    rcases hc : pivotCandidates pm text with - | ⟨s, rest⟩
    · unfold classifyPivot at hsome
      rw [hc] at hsome
      exact absurd hsome (by simp)
    · unfold classifyPivot at hsome
      rw [hc] at hsome
      have hx : firstMax s rest = (v, c, kws) := Option.some_injective _ hsome
      obtain ⟨l₁, l₂, heq, h₁, h₂⟩ := firstMax_split rest s
      rw [hx] at heq h₁ h₂
      have hsplit : pivotCandidates pm text = l₁ ++ (v, c, kws) :: l₂ := by
        rw [hc, heq]
      have hxmem : (v, c, kws) ∈ pivotCandidates pm text := by
        rw [hsplit]
        exact List.mem_append.mpr (Or.inr (List.mem_cons_self _ _))
      obtain ⟨w, -, hwsome⟩ := List.mem_filterMap.mp hxmem
      rcases pivotCandidate_eq_some.mp hwsome with ⟨hwpos, hweq⟩
      simp only [Prod.mk.injEq] at hweq
      obtain ⟨hvw, hcw, hkw⟩ := hweq
      subst hvw
      have hc0 : 0 < c := by
        rw [hcw]
        exact hwpos
      refine ⟨hcw, hc0, hkw, ?_, ?_⟩
      · intro u
        by_cases hu : 0 < voiceScore pm text u
        · have humem : (u, voiceScore pm text u, matchedKeywordsOf text u) ∈
              pivotCandidates pm text :=
            List.mem_filterMap.mpr ⟨u, mem_PIVOT_ALL u,
              pivotCandidate_eq_some.mpr ⟨hu, rfl⟩⟩
          rw [hsplit] at humem
          rcases List.mem_append.mp humem with hl | hr
          · exact le_of_lt (h₁ _ hl)
          · rcases List.mem_cons.mp hr with heq' | hl₂
            · have := congrArg (fun p : Voice × ℚ × List String => p.2.1) heq'
              exact le_of_eq this
            · exact h₂ _ hl₂
        · exact (not_lt.mp hu).trans (le_of_lt hc0)
      · intro u hult
        by_cases hu : 0 < voiceScore pm text u
        · have humem : (u, voiceScore pm text u, matchedKeywordsOf text u) ∈
              pivotCandidates pm text :=
            List.mem_filterMap.mpr ⟨u, mem_PIVOT_ALL u,
              pivotCandidate_eq_some.mpr ⟨hu, rfl⟩⟩
          rw [hsplit] at humem
          rcases List.mem_append.mp humem with hl | hr
          · exact h₁ _ hl
          · rcases List.mem_cons.mp hr with heq' | hl₂
            · have huv : u = v := congrArg Prod.fst heq'
              rw [huv] at hult
              exact absurd hult (lt_irrefl _)
            · have hpw := pivotCandidates_pairwise pm text
              rw [hsplit] at hpw
              have h3 := (List.pairwise_append.mp hpw).2.1
              have h4 := (List.pairwise_cons.mp h3).1 _ hl₂
              exact absurd h4 (not_lt.mpr (le_of_lt hult))
        · have hz : voiceScore pm text u = 0 :=
            le_antisymm (not_lt.mp hu) (voiceScore_nonneg pm text u)
          rw [hz]
          exact hc0

/-! Lemmas about the adverb degree-factor loop. -/

theorem degreeLoop_cons_matched (text adv : String) (f m : ℚ) (t : List (String × ℚ))
    (h : strContains text adv = true) :
    degreeLoop text ((adv, f) :: t) m =
      degreeLoop text t (if f > m then f else if f < 1 ∧ m = 1 then f else m) := by
  simp [degreeLoop, h]

theorem degreeLoop_cons_unmatched (text adv : String) (f m : ℚ) (t : List (String × ℚ))
    (h : strContains text adv = false) :
    degreeLoop text ((adv, f) :: t) m = degreeLoop text t m := by
  simp [degreeLoop, h]

theorem degreeLoop_append (text : String) :
    ∀ (l₁ l₂ : List (String × ℚ)) (m : ℚ),
    degreeLoop text (l₁ ++ l₂) m = degreeLoop text l₂ (degreeLoop text l₁ m) := by
  intro l₁
  induction l₁ with
  | nil => intro l₂ m; rfl
  | cons p t ih =>
    intro l₂ m
    rcases p with ⟨adv, f⟩
    cases h : strContains text adv
    · rw [List.cons_append, degreeLoop_cons_unmatched text adv f m _ h,
        degreeLoop_cons_unmatched text adv f m t h]
      exact ih l₂ m
    · rw [List.cons_append, degreeLoop_cons_matched text adv f m _ h,
        degreeLoop_cons_matched text adv f m t h]
      exact ih l₂ _

theorem degreeLoop_nomatch (text : String) :
    ∀ (l : List (String × ℚ)), (∀ p ∈ l, ¬ strContains text p.1 = true) →
    ∀ m, degreeLoop text l m = m := by
  intro l
  induction l with
  | nil => intro _ m; rfl
  | cons p t ih =>
    intro hl m
    rcases p with ⟨adv, f⟩
    have h : strContains text adv = false :=
      Bool.eq_false_iff.mpr (hl (adv, f) (List.mem_cons_self _ _))
    rw [degreeLoop_cons_unmatched text adv f m t h]
    exact ih (fun q hq => hl q (List.mem_cons_of_mem _ hq)) m

theorem ampStep (f m : ℚ) (hf : 1 < f) :
    (if f > m then f else if f < 1 ∧ m = 1 then f else m) = max m f := by
  by_cases h : f > m
  · rw [if_pos h, max_eq_right (le_of_lt h)]
  · rw [if_neg h, if_neg (fun hc => absurd hc.1 (not_lt.mpr (le_of_lt hf))),
      max_eq_left (not_lt.mp h)]

theorem ampLoop_init_le (text : String) :
    ∀ (l : List (String × ℚ)), (∀ p ∈ l, 1 < p.2) →
    ∀ m, m ≤ degreeLoop text l m := by
  intro l
  induction l with
  | nil => intro _ m; exact le_refl m
  | cons p t ih =>
    intro hl m
    rcases p with ⟨adv, f⟩
    have hf : 1 < f := hl (adv, f) (List.mem_cons_self _ _)
    have htl : ∀ q ∈ t, 1 < q.2 := fun q hq => hl q (List.mem_cons_of_mem _ hq)
    cases h : strContains text adv
    · rw [degreeLoop_cons_unmatched text adv f m t h]
      exact ih htl m
    · rw [degreeLoop_cons_matched text adv f m t h, ampStep f m hf]
      exact le_trans (le_max_left m f) (ih htl (max m f))

theorem ampLoop_matched_le (text : String) :
    ∀ (l : List (String × ℚ)), (∀ p ∈ l, 1 < p.2) →
    ∀ m p, p ∈ l → strContains text p.1 = true → p.2 ≤ degreeLoop text l m := by
  intro l
  induction l with
  | nil =>
    intro _ m p hp
    exact absurd hp (List.not_mem_nil p)
  | cons q t ih =>
    intro hl m p hp hpc
    rcases q with ⟨adv, f⟩
    have hf : 1 < f := hl (adv, f) (List.mem_cons_self _ _)
    have htl : ∀ q' ∈ t, 1 < q'.2 := fun q' hq => hl q' (List.mem_cons_of_mem _ hq)
    rcases List.mem_cons.mp hp with rfl | hpt
    · rw [degreeLoop_cons_matched text adv f m t hpc, ampStep f m hf]
      exact le_trans (le_max_right m f) (ampLoop_init_le text t htl (max m f))
    · cases h : strContains text adv
      · rw [degreeLoop_cons_unmatched text adv f m t h]
        exact ih htl m p hpt hpc
      · rw [degreeLoop_cons_matched text adv f m t h, ampStep f m hf]
        exact ih htl (max m f) p hpt hpc

theorem ampLoop_cases (text : String) :
    ∀ (l : List (String × ℚ)), (∀ p ∈ l, 1 < p.2) →
    ∀ m, degreeLoop text l m = m ∨
      ∃ p ∈ l, strContains text p.1 = true ∧ degreeLoop text l m = p.2 := by
  intro l
  induction l with
  | nil => intro _ m; exact Or.inl rfl
  | cons q t ih =>
    intro hl m
    rcases q with ⟨adv, f⟩
    have hf : 1 < f := hl (adv, f) (List.mem_cons_self _ _)
    have htl : ∀ q' ∈ t, 1 < q'.2 := fun q' hq => hl q' (List.mem_cons_of_mem _ hq)
    cases h : strContains text adv
    · rw [degreeLoop_cons_unmatched text adv f m t h]
      rcases ih htl m with h' | ⟨p, hp, hpc, hpe⟩
      · exact Or.inl h'
      · exact Or.inr ⟨p, List.mem_cons_of_mem _ hp, hpc, hpe⟩
    · rw [degreeLoop_cons_matched text adv f m t h, ampStep f m hf]
      rcases ih htl (max m f) with h' | ⟨p, hp, hpc, hpe⟩
      · rcases max_choice m f with hm | hm
        · exact Or.inl (by rw [h', hm])
        · exact Or.inr ⟨(adv, f), List.mem_cons_self _ _, h, by rw [h', hm]⟩
      · exact Or.inr ⟨p, List.mem_cons_of_mem _ hp, hpc, hpe⟩

theorem attLoop_skip (text : String) :
    ∀ (l : List (String × ℚ)), (∀ p ∈ l, p.2 < 1) →
    ∀ m, 1 < m → degreeLoop text l m = m := by
  intro l
  induction l with
  | nil => intro _ m _; rfl
  | cons q t ih =>
    intro hl m hm
    rcases q with ⟨adv, f⟩
    have hf : f < 1 := hl (adv, f) (List.mem_cons_self _ _)
    have htl : ∀ q' ∈ t, q'.2 < 1 := fun q' hq => hl q' (List.mem_cons_of_mem _ hq)
    cases h : strContains text adv
    · rw [degreeLoop_cons_unmatched text adv f m t h]
      exact ih htl m hm
    · rw [degreeLoop_cons_matched text adv f m t h,
        if_neg (not_lt.mpr (le_of_lt (hf.trans hm))),
        if_neg (fun hc => absurd hc.2 (ne_of_gt hm))]
      exact ih htl m hm

theorem attLoop_keep (text : String) :
    ∀ (l : List (String × ℚ)) (m : ℚ), m < 1 → (∀ p ∈ l, p.2 ≤ m) →
    degreeLoop text l m = m := by
  intro l
  induction l with
  | nil => intro m _ _; rfl
  | cons q t ih =>
    intro m hm hl
    rcases q with ⟨adv, f⟩
    have hf : f ≤ m := hl (adv, f) (List.mem_cons_self _ _)
    have htl : ∀ q' ∈ t, q'.2 ≤ m := fun q' hq => hl q' (List.mem_cons_of_mem _ hq)
    cases h : strContains text adv
    · rw [degreeLoop_cons_unmatched text adv f m t h]
      exact ih m hm htl
    · rw [degreeLoop_cons_matched text adv f m t h,
        if_neg (not_lt.mpr hf),
        if_neg (fun hc => absurd hc.2 (ne_of_lt hm))]
      exact ih m hm htl

theorem attLoop_first (text : String) :
    ∀ (l : List (String × ℚ)), (∀ p ∈ l, p.2 < 1) →
    l.Pairwise (fun a b => b.2 ≤ a.2) →
    (degreeLoop text l 1 = 1 ∧ ∀ p ∈ l, ¬ strContains text p.1 = true) ∨
    (∃ p ∈ l, strContains text p.1 = true ∧ degreeLoop text l 1 = p.2) := by
  intro l
  induction l with
  | nil =>
    intro _ _
    exact Or.inl ⟨rfl, fun p hp => absurd hp (List.not_mem_nil p)⟩
  | cons q t ih =>
    intro hl hpw
    rcases q with ⟨adv, f⟩
    have hf : f < 1 := hl (adv, f) (List.mem_cons_self _ _)
    have htl : ∀ q' ∈ t, q'.2 < 1 := fun q' hq => hl q' (List.mem_cons_of_mem _ hq)
    rcases List.pairwise_cons.mp hpw with ⟨hhead, htail⟩
    cases h : strContains text adv
    · rw [degreeLoop_cons_unmatched text adv f 1 t h]
      rcases ih htl htail with ⟨h1, h2⟩ | ⟨p, hp, hpc, hpe⟩
      · refine Or.inl ⟨h1, ?_⟩
        intro p hp
        rcases List.mem_cons.mp hp with rfl | hpt
        · simp [h]
        · exact h2 p hpt
      · exact Or.inr ⟨p, List.mem_cons_of_mem _ hp, hpc, hpe⟩
    · refine Or.inr ⟨(adv, f), List.mem_cons_self _ _, h, ?_⟩
      rw [degreeLoop_cons_matched text adv f 1 t h,
        if_neg (not_lt.mpr (le_of_lt hf)), if_pos ⟨hf, rfl⟩]
      exact attLoop_keep text t f hf (fun q' hq => hhead q' hq)

/-- The amplifying (factor above 1) head segment of the adverb table. -/
def ampAdverbs : List (String × ℚ) :=
  ADVERB_TO_DEGREE.takeWhile (fun p => decide (1 < p.2))

/-- The attenuating (factor below 1) tail segment of the adverb table. -/
def attAdverbs : List (String × ℚ) :=
  ADVERB_TO_DEGREE.dropWhile (fun p => decide (1 < p.2))

theorem mem_matchedFactors {text : String} {f : ℚ} :
    f ∈ matchedFactors text ↔
      ∃ p ∈ ADVERB_TO_DEGREE, strContains text p.1 = true ∧ p.2 = f := by
  unfold matchedFactors
  rw [List.mem_map]
  constructor
  · rintro ⟨p, hp, rfl⟩
    rcases List.mem_filter.mp hp with ⟨hmem, hcond⟩
    exact ⟨p, hmem, hcond, rfl⟩
  · rintro ⟨p, hmem, hcond, rfl⟩
    exact ⟨p, List.mem_filter.mpr ⟨hmem, hcond⟩, rfl⟩

set_option maxHeartbeats 2000000 in
/-- C5: the degree factor is the maximum matched adverb factor when any
matched factor is above 1; otherwise an attenuating matched factor when any
adverb with factor below 1 matched; otherwise exactly 1 — so amplification
takes priority over attenuation. -/
theorem degree_factor_policy (text : String) :
    ((∃ f ∈ matchedFactors text, 1 < f) →
      (morphAnalyze text).degree_factor ∈ matchedFactors text ∧
      (∀ f ∈ matchedFactors text, f ≤ (morphAnalyze text).degree_factor)) ∧
    ((∀ f ∈ matchedFactors text, ¬ 1 < f) → (∃ f ∈ matchedFactors text, f < 1) →
      (morphAnalyze text).degree_factor ∈ matchedFactors text ∧
      (morphAnalyze text).degree_factor < 1) ∧
    ((∀ f ∈ matchedFactors text, ¬ 1 < f) → (∀ f ∈ matchedFactors text, ¬ f < 1) →
      (morphAnalyze text).degree_factor = 1) := by
  have hdeg : (morphAnalyze text).degree_factor = degreeLoop text ADVERB_TO_DEGREE 1 := rfl
  have hsplitAdv : ADVERB_TO_DEGREE = ampAdverbs ++ attAdverbs :=
    (List.takeWhile_append_dropWhile _ _).symm
  have hampF : ∀ p ∈ ampAdverbs, 1 < p.2 := by
    intro p hp
    have hp' : p ∈ ADVERB_TO_DEGREE.takeWhile (fun q => decide (1 < q.2)) := hp
    have hdec := List.mem_takeWhile_imp hp'
    exact of_decide_eq_true hdec
  have hattF : ∀ p ∈ attAdverbs, p.2 < 1 := by decide
  have hattS : attAdverbs.Pairwise (fun a b => b.2 ≤ a.2) := by decide
  have hloop : degreeLoop text ADVERB_TO_DEGREE 1 =
      degreeLoop text attAdverbs (degreeLoop text ampAdverbs 1) := by
    conv_lhs => rw [hsplitAdv]
    exact degreeLoop_append text ampAdverbs attAdverbs 1
  by_cases hamps : ∃ p ∈ ampAdverbs, strContains text p.1 = true
  · obtain ⟨p₀, hp₀, hc₀⟩ := hamps
    have hp₀le : p₀.2 ≤ degreeLoop text ampAdverbs 1 :=
      ampLoop_matched_le text ampAdverbs hampF 1 p₀ hp₀ hc₀
    have hgt1 : 1 < degreeLoop text ampAdverbs 1 := lt_of_lt_of_le (hampF p₀ hp₀) hp₀le
    have hdval : (morphAnalyze text).degree_factor = degreeLoop text ampAdverbs 1 := by
      rw [hdeg, hloop, attLoop_skip text attAdverbs hattF _ hgt1]
    have hmemAmp : ∃ q ∈ ampAdverbs, strContains text q.1 = true ∧
        degreeLoop text ampAdverbs 1 = q.2 := by
      rcases ampLoop_cases text ampAdverbs hampF 1 with h | h
      · rw [h] at hgt1
        exact absurd hgt1 (lt_irrefl 1)
      · exact h
    obtain ⟨q, hq, hqc, hqe⟩ := hmemAmp
    have hdmem : (morphAnalyze text).degree_factor ∈ matchedFactors text := by
      rw [hdval, hqe]
      exact mem_matchedFactors.mpr
        ⟨q, by rw [hsplitAdv]; exact List.mem_append.mpr (Or.inl hq), hqc, rfl⟩
    have hp₀mem : p₀.2 ∈ matchedFactors text :=
      mem_matchedFactors.mpr
        ⟨p₀, by rw [hsplitAdv]; exact List.mem_append.mpr (Or.inl hp₀), hc₀, rfl⟩
    have hdmax : ∀ f ∈ matchedFactors text, f ≤ (morphAnalyze text).degree_factor := by
      intro f hf
      rcases mem_matchedFactors.mp hf with ⟨p, hpmem, hpc, rfl⟩
      rw [hdval]
      rw [hsplitAdv] at hpmem
      rcases List.mem_append.mp hpmem with hl | hr
      · exact ampLoop_matched_le text ampAdverbs hampF 1 p hl hpc
      · exact le_of_lt ((hattF p hr).trans hgt1)
    refine ⟨fun _ => ⟨hdmem, hdmax⟩, ?_, ?_⟩
    · intro hno1 _
      exact absurd (hampF p₀ hp₀) (hno1 _ hp₀mem)
    · intro hno1 _
      exact absurd (hampF p₀ hp₀) (hno1 _ hp₀mem)
  · have hampNone : ∀ p ∈ ampAdverbs, ¬ strContains text p.1 = true :=
      fun p hp hc => hamps ⟨p, hp, hc⟩
    have hmA : degreeLoop text ampAdverbs 1 = 1 :=
      degreeLoop_nomatch text ampAdverbs hampNone 1
    have hdval : (morphAnalyze text).degree_factor = degreeLoop text attAdverbs 1 := by
      rw [hdeg, hloop, hmA]
    have hno1 : ∀ f ∈ matchedFactors text, ¬ 1 < f := by
      intro f hf hgt
      rcases mem_matchedFactors.mp hf with ⟨p, hpmem, hpc, rfl⟩
      rw [hsplitAdv] at hpmem
      rcases List.mem_append.mp hpmem with hl | hr
      · exact hampNone p hl hpc
      · exact absurd hgt (not_lt.mpr (le_of_lt (hattF p hr)))
    rcases attLoop_first text attAdverbs hattF hattS with ⟨h1, hnoneAtt⟩ | ⟨p, hp, hpc, hpe⟩
    · have hempty : ∀ f, f ∈ matchedFactors text → False := by
        intro f hf
        rcases mem_matchedFactors.mp hf with ⟨p, hpmem, hpc, rfl⟩
        rw [hsplitAdv] at hpmem
        rcases List.mem_append.mp hpmem with hl | hr
        · exact hampNone p hl hpc
        · exact hnoneAtt p hr hpc
      refine ⟨?_, ?_, ?_⟩
      · rintro ⟨f, hf, -⟩
        exact (hempty f hf).elim
      · rintro - ⟨f, hf, -⟩
        exact (hempty f hf).elim
      · intro _ _
        rw [hdval, h1]
    · have hdval2 : (morphAnalyze text).degree_factor = p.2 := by rw [hdval, hpe]
      have hpmemF : p.2 ∈ matchedFactors text :=
        mem_matchedFactors.mpr
          ⟨p, by rw [hsplitAdv]; exact List.mem_append.mpr (Or.inr hp), hpc, rfl⟩
      refine ⟨?_, ?_, ?_⟩
      · rintro ⟨f, hf, hf1⟩
        exact absurd hf1 (hno1 f hf)
      · intro _ _
        exact ⟨hdval2 ▸ hpmemF, by rw [hdval2]; exact hattF p hp⟩
      · intro _ hnolt
        exact absurd (hattF p hp) (hnolt _ hpmemF)

/-- C5 witness: a sentence containing 非常に (1.5) and ちょっと (0.7) takes the
amplifying maximum 1.5. -/
theorem degree_factor_witness :
    (morphAnalyze mixedAdverbSentence).degree_factor ∈ matchedFactors mixedAdverbSentence ∧
    ∀ f ∈ matchedFactors mixedAdverbSentence,
      f ≤ (morphAnalyze mixedAdverbSentence).degree_factor :=
  (degree_factor_policy mixedAdverbSentence).1 ⟨1.5, by decide, by decide⟩

/-- C3 witness: the lexical classifier on a concrete sentence matching the
Pain keywords 問題 and 面倒. -/
theorem lexical_classifier_witness :
    (0.4 : ℚ) = voiceScore noPat lexicalSentence Voice.P ∧
    (0 : ℚ) < 0.4 ∧
    ["問題", "面倒"] = matchedKeywordsOf lexicalSentence Voice.P ∧
    (∀ w, voiceScore noPat lexicalSentence w ≤ 0.4) ∧
    (∀ w, voiceIdx w < voiceIdx Voice.P → voiceScore noPat lexicalSentence w < 0.4) :=
  (lexical_classifier_scoring noPat lexicalSentence).2 Voice.P 0.4 ["問題", "面倒"]
    (by decide)

end PivotAnalyzer
